import Mathlib

/-!
Verification of the opustags core: a shallow embedding of the OpusTags
comment-packet codec, the identification-header validator, the comment
deletion helper and the Ogg reader's packet protocol, together with
theorems about them.

Byte buffers are modelled as `List Nat`, each element standing for one
byte (values below 256 where byte-exactness matters). The implementation
files of the repository only declare these functions in `opustags.h`; the
behaviours are modelled from the specification (§4.1, §4.3, §4.4) and the
unit tests, as noted on each definition.
-/

namespace ot

/-- Possible return status, mirroring `enum class st` of `opustags.h`. -/
inductive st where
  | ok
  | int_overflow
  | standard_error
  | end_of_stream
  | end_of_page
  | stream_not_ready
  | libogg_error
  | bad_magic_number
  | cut_magic_number
  | cut_vendor_length
  | cut_vendor_data
  | cut_comment_count
  | cut_comment_length
  | cut_comment_data
  | bad_arguments
  | exit_now
  | fatal_error
  deriving DecidableEq

/-- Wraps a status code with an optional message, mirroring `struct status`. -/
structure status where
  code : st
  message : String := ""
  deriving DecidableEq

/-- The implicit conversion `operator st()` of `struct status`: it returns `code`. -/
def status.toSt (s : status) : st := s.code

/-- The 8-byte magic signature "OpusTags" of a comment header. -/
def opusTagsMagic : List Nat := [79, 112, 117, 115, 84, 97, 103, 115]

/-- The 8-byte magic signature "OpusHead" of an identification header. -/
def opusHeadMagic : List Nat := [79, 112, 117, 115, 72, 101, 97, 100]

/-- All the data in an OpusTags packet, mirroring `struct opus_tags`. -/
structure opus_tags where
  vendor : List Nat := []
  comments : List (List Nat) := []
  extra_data : List Nat := []
  deriving DecidableEq

/-- Read a little-endian unsigned 32-bit integer at offset `pos` of buffer `b`. -/
def readLE32 (b : List Nat) (pos : Nat) : Nat :=
  b.getD pos 0 + 256 * b.getD (pos + 1) 0 + 65536 * b.getD (pos + 2) 0
    + 16777216 * b.getD (pos + 3) 0

/-- Encode `n` as a little-endian unsigned 32-bit integer (4 bytes, truncating mod 2^32). -/
def le32enc (n : Nat) : List Nat :=
  [n % 256, n / 256 % 256, n / 65536 % 256, n / 16777216 % 256]

/-- The bytes of `b` from offset `i` (included) to offset `j` (excluded). -/
def slice (b : List Nat) (i j : Nat) : List Nat := (b.drop i).take (j - i)

/-- Modelled from the spec (§4.3 step 5, the comment loop of `parse_tags`, whose
implementation file is not in the repository snapshot): starting at cursor `pos`,
read `n` comments, each a 4-byte little-endian length followed by that many bytes
of data; an overflowing length field yields `cut_comment_length` and overflowing
data yields `cut_comment_data`. Returns the comments and the final cursor. -/
def parse_comments (b : List Nat) : Nat → Nat → Except st (List (List Nat) × Nat)
  | pos, 0 => .ok ([], pos)
  | pos, n + 1 =>
    if pos + 4 > b.length then .error st.cut_comment_length
    else if pos + 4 + readLE32 b pos > b.length then .error st.cut_comment_data
    else
      match parse_comments b (pos + 4 + readLE32 b pos) n with
      | .ok (cs, fin) => .ok (slice b (pos + 4) (pos + 4 + readLE32 b pos) :: cs, fin)
      | .error e => .error e

/-- Modelled from the spec (§4.3 `parse`, the implementation file of `parse_tags`
is not in the repository snapshot): decode the OpusTags binary layout — 8-byte
magic signature, 4-byte vendor length, vendor bytes, 4-byte comment count, the
comments, then the remaining bytes as `extra_data` — with checked bounds at each
field, reporting the specific `cut_*` error of the first overflowing field. -/
def parse_tags_core (b : List Nat) : Except st opus_tags :=
  if b.length < 8 then .error st.cut_magic_number
  else if b.take 8 ≠ opusTagsMagic then .error st.bad_magic_number
  else if b.length < 12 then .error st.cut_vendor_length
  else if 12 + readLE32 b 8 > b.length then .error st.cut_vendor_data
  else if 16 + readLE32 b 8 > b.length then .error st.cut_comment_count
  else
    match parse_comments b (16 + readLE32 b 8) (readLE32 b (12 + readLE32 b 8)) with
    | .error e => .error e
    | .ok (cs, fin) =>
      .ok { vendor := slice b 12 (12 + readLE32 b 8)
            comments := cs
            extra_data := b.drop fin }

/-- Modelled from the spec (§4.3, `status parse_tags(const ogg_packet&, opus_tags&)`):
decode the packet into the tags object; on error the tags object is left unchanged
and the status carries an error message. -/
def parse_tags (b : List Nat) (tags : opus_tags) : status × opus_tags :=
  match parse_tags_core b with
  | .ok t => ({ code := st.ok }, t)
  | .error e => ({ code := e, message := "invalid comment header" }, tags)

/-- Concatenation of each comment's 4-byte little-endian length followed by its bytes. -/
def comments_bytes : List (List Nat) → List Nat
  | [] => []
  | c :: cs => le32enc c.length ++ c ++ comments_bytes cs

/-- Modelled from the spec (§4.3 `render`): the serialized bytes of a tag set —
magic signature, vendor length and bytes, comment count, each comment's length and
bytes, then `extra_data` verbatim, with no padding. -/
def render_tags_data (t : opus_tags) : List Nat :=
  opusTagsMagic ++ le32enc t.vendor.length ++ t.vendor
    ++ le32enc t.comments.length ++ comments_bytes t.comments ++ t.extra_data

/-- Ogg packet with dynamically allocated data, mirroring `struct dynamic_ogg_packet`
(the libogg metadata fields it inherits from `ogg_packet` included). -/
structure dynamic_ogg_packet where
  bytes : Nat
  packet : List Nat
  b_o_s : Nat
  e_o_s : Nat
  granulepos : Int
  packetno : Int
  deriving DecidableEq

/-- Modelled from the spec (§4.3 `render`; the implementation file of `render_tags`
is not in the repository snapshot) and the unit test `recode_standard`, which fixes
the packet metadata: b_o_s = 0, e_o_s = 0, granulepos = 0, packetno = 1. -/
def render_tags (t : opus_tags) : dynamic_ogg_packet :=
  { bytes := (render_tags_data t).length
    packet := render_tags_data t
    b_o_s := 0
    e_o_s := 0
    granulepos := 0
    packetno := 1 }

/-- Modelled from the spec (§4.4 `validate`; the implementation file of
`validate_identification_header` is not in the repository snapshot): the packet
must have at least 8 bytes and they must equal the "OpusHead" magic signature. -/
def validate_identification_header (b : List Nat) : status :=
  if b.length < 8 then { code := st.cut_magic_number, message := "identification header too short" }
  else if b.take 8 ≠ opusHeadMagic then { code := st.bad_magic_number, message := "bad magic number" }
  else { code := st.ok }

/-- The field name of a comment: the portion before the first `=` (byte 61). -/
def comment_name (c : List Nat) : List Nat := c.takeWhile (fun x => x != 61)

/-- Modelled from the spec (§4.3 `delete_by_name`; the implementation file of
`delete_comments` is not in the repository snapshot): remove all the comments whose
field name equals `field_name`, case-sensitive. -/
def delete_comments (tags : opus_tags) (field_name : List Nat) : opus_tags :=
  { tags with comments := tags.comments.filter (fun c => comment_name c != field_name) }

/-- Modelled from the spec (§4.1, §9; the implementation file of `ogg_reader` is not
in the repository snapshot): the reader's abstract state — the pages not yet read,
whether the stream was initialized by a successful `read_page`, and the packets
remaining in the current page. -/
structure ogg_reader where
  input : List (List (List Nat))
  stream_ready : Bool
  page_packets : List (List Nat)
  deriving DecidableEq

/-- A freshly constructed reader: no page read yet, stream not ready. -/
def ogg_reader.init (pages : List (List (List Nat))) : ogg_reader :=
  { input := pages, stream_ready := false, page_packets := [] }

/-- Modelled from the spec (§4.1 `read_page`): pull the next page, initializing the
per-stream packet extraction state on success; `end_of_stream` when exhausted. -/
def ogg_reader.read_page (r : ogg_reader) : status × ogg_reader :=
  match r.input with
  | [] => ({ code := st.end_of_stream }, r)
  | pg :: rest => ({ code := st.ok }, { input := rest, stream_ready := true, page_packets := pg })

/-- Modelled from the spec (§4.1 `read_packet`): fail with `stream_not_ready` before
any page has been read; otherwise yield the next packet of the current page in
order, or `end_of_page` once they are exhausted. -/
def ogg_reader.read_packet (r : ogg_reader) : status × Option (List Nat) × ogg_reader :=
  if r.stream_ready = false then
    ({ code := st.stream_not_ready, message := "stream not ready" }, none, r)
  else
    match r.page_packets with
    | [] => ({ code := st.end_of_page }, none, r)
    | p :: ps =>
      ({ code := st.ok }, some p,
        { input := r.input, stream_ready := true, page_packets := ps })

/-- Call `read_packet` repeatedly, collecting the yielded packets until a non-ok
status, which is returned with them. The fuel bounds the recursion. -/
def drain_fuel : Nat → ogg_reader → List (List Nat) × st
  | 0, _ => ([], st.libogg_error)
  | fuel + 1, r =>
    match r.read_packet with
    | (_, some p, r') =>
      let rest := drain_fuel fuel r'
      (p :: rest.1, rest.2)
    | (s, none, _) => ([], s.code)

/-- All the packets `read_packet` yields from the current state, with the status
that ended the iteration. -/
def drain (r : ogg_reader) : List (List Nat) × st :=
  drain_fuel (r.page_packets.length + 1) r

/-- The `cut_*` status of the comment-region field within which offset `k` falls,
for a comment list laid out from cursor `pos`: each comment occupies a 4-byte
length field then its data bytes. -/
def cut_status_comments : List (List Nat) → Nat → Nat → st
  | [], _, _ => st.ok
  | c :: cs, pos, k =>
    if k < pos + 4 then st.cut_comment_length
    else if k < pos + 4 + c.length then st.cut_comment_data
    else cut_status_comments cs (pos + 4 + c.length) k

/-- The `cut_*` status of the field of tag set `t`'s serialized layout within which
byte offset `k` falls: magic in bytes 0..7, vendor length in 8..11, vendor data,
comment count, then the comments. -/
def cut_status (t : opus_tags) (k : Nat) : st :=
  if k < 8 then st.cut_magic_number
  else if k < 12 then st.cut_vendor_length
  else if k < 12 + t.vendor.length then st.cut_vendor_data
  else if k < 16 + t.vendor.length then st.cut_comment_count
  else cut_status_comments t.comments (16 + t.vendor.length) k

/-- The number of bytes the serialized comment region occupies. -/
def comments_size (cs : List (List Nat)) : Nat :=
  (cs.map (fun c => 4 + c.length)).sum

/-- Length of a slice whose bounds are in range. -/
lemma slice_length {b : List Nat} {i j : Nat} (hij : i ≤ j) (hj : j ≤ b.length) :
    (slice b i j).length = j - i := by
  simp only [slice, List.length_take, List.length_drop]
  omega

/-- Adjacent slices concatenate. -/
lemma slice_append {b : List Nat} {i j k : Nat} (hij : i ≤ j) (hjk : j ≤ k) :
    slice b i j ++ slice b j k = slice b i k := by
  have h1 : b.drop j = (b.drop i).drop (j - i) := by
    rw [List.drop_drop]
    congr 1
    omega
  have h2 : (j - i) + (k - j) = k - i := by omega
  unfold slice
  rw [h1, ← List.take_add, h2]

/-- A slice starting at 0 is a take. -/
lemma slice_zero (b : List Nat) (j : Nat) : slice b 0 j = b.take j := by
  simp [slice]

/-- A slice reaching the end of the buffer is a drop. -/
lemma slice_to_end (b : List Nat) (i : Nat) : slice b i b.length = b.drop i := by
  unfold slice
  exact List.take_of_length_le (by simp [List.length_drop])

/-- The whole buffer is a slice of itself. -/
lemma slice_whole (b : List Nat) : slice b 0 b.length = b := by
  rw [slice_zero]
  exact List.take_of_length_le (le_refl _)

/-- Every defaulted read from a byte-bounded buffer is a byte. -/
lemma getD_lt_256 {b : List Nat} (hb : ∀ x ∈ b, x < 256) (i : Nat) : b.getD i 0 < 256 := by
  by_cases h : i < b.length
  · rw [List.getD_eq_getElem _ _ h]
    exact hb _ (List.getElem_mem _)
  · rw [List.getD_eq_default _ _ (by omega)]
    omega

/-- Reading within the kept prefix of a truncated buffer reads the same bytes. -/
lemma getD_take {b : List Nat} {k i : Nat} (hik : i < k) (hk : k ≤ b.length) :
    (b.take k).getD i 0 = b.getD i 0 := by
  have h1 : i < (b.take k).length := by
    simp only [List.length_take]
    omega
  rw [List.getD_eq_getElem _ _ h1, List.getD_eq_getElem _ _ (by omega), List.getElem_take]

/-- A 32-bit read fully inside the kept prefix of a truncated buffer is unchanged. -/
lemma readLE32_take {b : List Nat} {k pos : Nat} (h : pos + 4 ≤ k) (hk : k ≤ b.length) :
    readLE32 (b.take k) pos = readLE32 b pos := by
  unfold readLE32
  rw [getD_take (by omega) hk, getD_take (by omega) hk, getD_take (by omega) hk,
    getD_take (by omega) hk]

/-- Dropping to a position within the buffer exposes the byte there. -/
lemma drop_eq_getD_cons {b : List Nat} {i : Nat} (h : i < b.length) :
    b.drop i = b.getD i 0 :: b.drop (i + 1) := by
  rw [List.drop_eq_getElem_cons h]
  congr 1
  exact (List.getD_eq_getElem _ _ h).symm

/-- The four bytes at offset `pos`, as defaulted reads. -/
lemma take_four {b : List Nat} {pos : Nat} (h : pos + 4 ≤ b.length) :
    slice b pos (pos + 4) =
      [b.getD pos 0, b.getD (pos + 1) 0, b.getD (pos + 2) 0, b.getD (pos + 3) 0] := by
  have e : slice b pos (pos + 4) = (b.drop pos).take 4 := by
    unfold slice
    congr 1
    omega
  rw [e, drop_eq_getD_cons (by omega), drop_eq_getD_cons (by omega),
    drop_eq_getD_cons (by omega), drop_eq_getD_cons (by omega)]
  rfl

/-- Re-encoding a 32-bit integer read from a byte-bounded buffer reproduces the
4 bytes it was read from. -/
lemma le32enc_readLE32 {b : List Nat} {pos : Nat} (hb : ∀ x ∈ b, x < 256)
    (h : pos + 4 ≤ b.length) :
    le32enc (readLE32 b pos) = slice b pos (pos + 4) := by
  have c0 := getD_lt_256 hb pos
  have c1 := getD_lt_256 hb (pos + 1)
  have c2 := getD_lt_256 hb (pos + 2)
  have c3 := getD_lt_256 hb (pos + 3)
  rw [take_four h]
  simp only [le32enc, readLE32, List.cons.injEq, and_true]
  omega

/-- The comment region of an empty comment list occupies no bytes. -/
lemma comments_size_nil : comments_size ([] : List (List Nat)) = 0 := rfl

/-- The first comment occupies 4 bytes of length field plus its data. -/
lemma comments_size_cons (c : List Nat) (cs : List (List Nat)) :
    comments_size (c :: cs) = 4 + c.length + comments_size cs := by
  simp [comments_size]

/-- Structural facts about a successful comment-loop run: it returns as many
comments as requested, the final cursor advances by exactly the serialized size
of the comments, and (when at least one comment was read) stays in bounds. -/
lemma parse_comments_ok_len {b : List Nat} :
    ∀ (n pos : Nat) {cs : List (List Nat)} {fin : Nat},
      parse_comments b pos n = .ok (cs, fin) →
      cs.length = n ∧ fin = pos + comments_size cs ∧ (0 < n → fin ≤ b.length) := by
  intro n
  induction n with
  | zero =>
    intro pos cs fin h
    simp only [parse_comments, Except.ok.injEq, Prod.mk.injEq] at h
    obtain ⟨h1, h2⟩ := h
    subst h1
    subst h2
    exact ⟨rfl, by simp [comments_size_nil], by omega⟩
  | succ n ih =>
    intro pos cs fin h
    simp only [parse_comments] at h
    split at h
    · simp at h
    split at h
    · simp at h
    rename_i h1 h2
    split at h
    · rename_i cs' fin' heq
      simp only [Except.ok.injEq, Prod.mk.injEq] at h
      obtain ⟨h3, h4⟩ := h
      subst h3
      subst h4
      obtain ⟨ihlen, ihfin, ihle⟩ := ih _ heq
      have hhead : (slice b (pos + 4) (pos + 4 + readLE32 b pos)).length = readLE32 b pos := by
        rw [slice_length (by omega) (by omega)]
        omega
      refine ⟨by simp [ihlen], ?_, ?_⟩
      · rw [comments_size_cons, hhead]
        omega
      · intro _
        rcases Nat.eq_zero_or_pos n with hn | hn
        · subst hn
          have : cs' = [] := List.length_eq_zero.mp ihlen
          subst this
          rw [ihfin, comments_size_nil]
          omega
        · exact ihle hn
    · simp at h

/-- A failing comment loop reports either a cut length field or cut comment data. -/
lemma parse_comments_error_code {b : List Nat} :
    ∀ (n pos : Nat) {e : st}, parse_comments b pos n = .error e →
      e = st.cut_comment_length ∨ e = st.cut_comment_data := by
  intro n
  induction n with
  | zero =>
    intro pos e h
    simp only [parse_comments] at h
    simp at h
  | succ n ih =>
    intro pos e h
    simp only [parse_comments] at h
    split at h
    · simp only [Except.error.injEq] at h
      exact Or.inl h.symm
    split at h
    · simp only [Except.error.injEq] at h
      exact Or.inr h.symm
    split at h
    · simp at h
    · rename_i e' heq
      simp only [Except.error.injEq] at h
      subst h
      exact ih _ heq

/-- The bytes consumed by a successful comment-loop run are exactly the
serialization of the comments it returns. -/
lemma parse_comments_ok_bytes {b : List Nat} (hb : ∀ x ∈ b, x < 256) :
    ∀ (n pos : Nat) {cs : List (List Nat)} {fin : Nat},
      parse_comments b pos n = .ok (cs, fin) →
      comments_bytes cs = slice b pos fin := by
  intro n
  induction n with
  | zero =>
    intro pos cs fin h
    simp only [parse_comments, Except.ok.injEq, Prod.mk.injEq] at h
    obtain ⟨h1, h2⟩ := h
    subst h1
    subst h2
    simp [comments_bytes, slice]
  | succ n ih =>
    intro pos cs fin h
    simp only [parse_comments] at h
    split at h
    · simp at h
    split at h
    · simp at h
    rename_i h1 h2
    split at h
    · rename_i cs' fin' heq
      simp only [Except.ok.injEq, Prod.mk.injEq] at h
      obtain ⟨h3, h4⟩ := h
      subst h3
      rw [← h4]
      obtain ⟨ihlen, ihfin, _⟩ := parse_comments_ok_len _ _ heq
      have hrec := ih _ heq
      have hhead : (slice b (pos + 4) (pos + 4 + readLE32 b pos)).length = readLE32 b pos := by
        rw [slice_length (by omega) (by omega)]
        omega
      have hfin_ge : pos + 4 + readLE32 b pos ≤ fin' := by
        omega
      simp only [comments_bytes, hhead]
      rw [le32enc_readLE32 hb (by omega), hrec, List.append_assoc,
        slice_append (by omega) hfin_ge, slice_append (by omega) (by omega)]
    · simp at h

/-- Inversion of a successful decode: the buffer starts with the magic signature,
every declared length fits, the decoded fields mirror the corresponding byte
ranges, and re-serializing the decoded tag set reproduces the buffer. -/
lemma parse_tags_core_ok {b : List Nat} {t : opus_tags} (hb : ∀ x ∈ b, x < 256)
    (h : parse_tags_core b = .ok t) :
    b.take 8 = opusTagsMagic
    ∧ 16 + readLE32 b 8 ≤ b.length
    ∧ t.vendor.length = readLE32 b 8
    ∧ t.comments.length = readLE32 b (12 + readLE32 b 8)
    ∧ 16 + readLE32 b 8 + comments_size t.comments ≤ b.length
    ∧ parse_comments b (16 + readLE32 b 8) (readLE32 b (12 + readLE32 b 8))
        = .ok (t.comments, 16 + readLE32 b 8 + comments_size t.comments)
    ∧ render_tags_data t = b := by
  simp only [parse_tags_core] at h
  split at h
  · simp at h
  rename_i hL8
  split at h
  · simp at h
  rename_i hmag
  split at h
  · simp at h
  rename_i hL12
  split at h
  · simp at h
  rename_i hvd
  split at h
  · simp at h
  rename_i hcc
  split at h
  · simp at h
  rename_i cs fin heq
  simp only [Except.ok.injEq] at h
  subst h
  dsimp only
  have hmag' : b.take 8 = opusTagsMagic := not_ne_iff.mp hmag
  obtain ⟨hcsl, hfin, hfinle'⟩ := parse_comments_ok_len _ _ heq
  have hfinle : fin ≤ b.length := by
    rcases Nat.eq_zero_or_pos (readLE32 b (12 + readLE32 b 8)) with hz | hp
    · rw [hz] at hcsl
      have hnil : cs = [] := List.length_eq_zero.mp hcsl
      subst hnil
      rw [hfin, comments_size_nil]
      omega
    · exact hfinle' hp
  have hv : (slice b 12 (12 + readLE32 b 8)).length = readLE32 b 8 := by
    rw [slice_length (by omega) (by omega)]
    omega
  have e0 : slice b 0 8 = opusTagsMagic := (slice_zero b 8).trans hmag'
  have e1 : le32enc (readLE32 b 8) = slice b 8 12 := by
    have e := @le32enc_readLE32 b 8 hb (by omega)
    simpa using e
  have e2 : le32enc (readLE32 b (12 + readLE32 b 8))
      = slice b (12 + readLE32 b 8) (16 + readLE32 b 8) := by
    have h4 : 12 + readLE32 b 8 + 4 = 16 + readLE32 b 8 := by omega
    have e := @le32enc_readLE32 b (12 + readLE32 b 8) hb (by omega)
    rw [e, h4]
  have e3 : comments_bytes cs = slice b (16 + readLE32 b 8) fin :=
    parse_comments_ok_bytes hb _ _ heq
  have e4 : b.drop fin = slice b fin b.length := (slice_to_end b fin).symm
  refine ⟨hmag', by omega, hv, hcsl, by omega, ?_, ?_⟩
  · rw [← hfin]
    exact heq
  · simp only [render_tags_data]
    rw [hv, hcsl, ← e0, e1, e2, e3, e4]
    simp only [List.append_assoc]
    rw [slice_append (by omega) (by omega), slice_append (by omega) (by omega),
      slice_append (by omega) (by omega), slice_append (by omega) (by omega),
      slice_append (by omega) (by omega), slice_whole]

/-- A failing decode never reports the ok status. -/
lemma parse_tags_core_error_ne_ok {b : List Nat} {e : st}
    (h : parse_tags_core b = .error e) : e ≠ st.ok := by
  simp only [parse_tags_core] at h
  split at h
  · simp only [Except.error.injEq] at h
    subst h
    decide
  split at h
  · simp only [Except.error.injEq] at h
    subst h
    decide
  split at h
  · simp only [Except.error.injEq] at h
    subst h
    decide
  split at h
  · simp only [Except.error.injEq] at h
    subst h
    decide
  split at h
  · simp only [Except.error.injEq] at h
    subst h
    decide
  split at h
  · rename_i e' heq
    simp only [Except.error.injEq] at h
    subst h
    rcases parse_comments_error_code _ _ heq with h | h <;> subst h <;> decide
  · simp at h

/-- Truncating within the comment region of a buffer whose comment loop succeeds
makes the loop fail with the error of the comment field the cut falls in. -/
lemma parse_comments_trunc {b : List Nat} :
    ∀ (n pos : Nat) {cs : List (List Nat)} {fin : Nat} {k : Nat},
      parse_comments b pos n = .ok (cs, fin) →
      pos ≤ k → k < fin → k ≤ b.length →
      parse_comments (b.take k) pos n = .error (cut_status_comments cs pos k) := by
  intro n
  induction n with
  | zero =>
    intro pos cs fin k h hpk hkf hkb
    simp only [parse_comments, Except.ok.injEq, Prod.mk.injEq] at h
    obtain ⟨h1, h2⟩ := h
    subst h1
    exact absurd hkf (by omega)
  | succ n ih =>
    intro pos cs fin k h hpk hkf hkb
    simp only [parse_comments] at h
    split at h
    · simp at h
    rename_i hc1
    split at h
    · simp at h
    rename_i hc2
    split at h
    · rename_i cs' fin' heq
      simp only [Except.ok.injEq, Prod.mk.injEq] at h
      obtain ⟨h3, h4⟩ := h
      subst h3
      have hTlen : (b.take k).length = k := by
        rw [List.length_take]
        omega
      simp only [parse_comments, cut_status_comments, hTlen]
      by_cases hk1 : k < pos + 4
      · rw [if_pos (show pos + 4 > k by omega), if_pos hk1]
      · have hr : readLE32 (b.take k) pos = readLE32 b pos := readLE32_take (by omega) hkb
        have hheadlen : (slice b (pos + 4) (pos + 4 + readLE32 b pos)).length
            = readLE32 b pos := by
          rw [slice_length (by omega) (by omega)]
          omega
        rw [if_neg (show ¬(pos + 4 > k) by omega), hr, if_neg hk1, hheadlen]
        by_cases hk2 : k < pos + 4 + readLE32 b pos
        · rw [if_pos (show pos + 4 + readLE32 b pos > k by omega), if_pos hk2]
        · rw [if_neg (show ¬(pos + 4 + readLE32 b pos > k) by omega), if_neg hk2,
            ih _ heq (by omega) (by omega) hkb]
    · simp at h

/-- Inside the comment region, the cut status is one of the two comment errors. -/
lemma cut_status_comments_cases :
    ∀ (cs : List (List Nat)) (pos k : Nat), pos ≤ k → k < pos + comments_size cs →
      cut_status_comments cs pos k = st.cut_comment_length
        ∨ cut_status_comments cs pos k = st.cut_comment_data := by
  intro cs
  induction cs with
  | nil =>
    intro pos k h1 h2
    rw [comments_size_nil] at h2
    omega
  | cons c cs ih =>
    intro pos k h1 h2
    rw [comments_size_cons] at h2
    simp only [cut_status_comments]
    by_cases hk1 : k < pos + 4
    · rw [if_pos hk1]
      exact Or.inl rfl
    · rw [if_neg hk1]
      by_cases hk2 : k < pos + 4 + c.length
      · rw [if_pos hk2]
        exact Or.inr rfl
      · rw [if_neg hk2]
        exact ih _ _ (by omega) (by omega)

/-- Within the structured fields, the cut status is always one of the six cut errors. -/
lemma cut_status_cases {t : opus_tags} {k : Nat}
    (hk : k < 16 + t.vendor.length + comments_size t.comments) :
    cut_status t k ∈ [st.cut_magic_number, st.cut_vendor_length, st.cut_vendor_data,
      st.cut_comment_count, st.cut_comment_length, st.cut_comment_data] := by
  simp only [cut_status]
  by_cases h1 : k < 8
  · rw [if_pos h1]
    simp
  rw [if_neg h1]
  by_cases h2 : k < 12
  · rw [if_pos h2]
    simp
  rw [if_neg h2]
  by_cases h3 : k < 12 + t.vendor.length
  · rw [if_pos h3]
    simp
  rw [if_neg h3]
  by_cases h4 : k < 16 + t.vendor.length
  · rw [if_pos h4]
    simp
  rw [if_neg h4]
  rcases cut_status_comments_cases t.comments (16 + t.vendor.length) k (by omega) (by omega)
    with h | h <;> rw [h] <;> simp

/-- The serialized comment region takes exactly `comments_size` bytes. -/
lemma comments_bytes_length (cs : List (List Nat)) :
    (comments_bytes cs).length = comments_size cs := by
  induction cs with
  | nil => rfl
  | cons c cs ih =>
    simp only [comments_bytes, List.length_append, ih, comments_size_cons, le32enc,
      List.length_cons, List.length_nil]

/-- The serialized comment region is the flattening of each comment's length
field followed by its bytes. -/
lemma comments_bytes_eq_flatten (cs : List (List Nat)) :
    comments_bytes cs = (cs.map (fun c => le32enc c.length ++ c)).flatten := by
  induction cs with
  | nil => rfl
  | cons c cs ih =>
    simp only [comments_bytes, List.map_cons, List.flatten_cons, ih, List.append_assoc]

/-- Each comment occupies at least its 4-byte length field. -/
lemma comments_size_ge (cs : List (List Nat)) : 4 * cs.length ≤ comments_size cs := by
  induction cs with
  | nil => simp [comments_size_nil]
  | cons c cs ih =>
    rw [comments_size_cons]
    simp only [List.length_cons]
    omega

/-- Reading a packet from a reader whose stream is not ready fails. -/
lemma read_packet_not_ready {r : ogg_reader} (h : r.stream_ready = false) :
    r.read_packet = ({ code := st.stream_not_ready, message := "stream not ready" }, none, r) := by
  simp [ogg_reader.read_packet, h]

/-- Reading a packet from a ready reader with an exhausted page yields end of page. -/
lemma read_packet_end_of_page {r : ogg_reader} (h1 : r.stream_ready = true)
    (h2 : r.page_packets = []) :
    r.read_packet = ({ code := st.end_of_page }, none, r) := by
  simp [ogg_reader.read_packet, h1, h2]

/-- Reading a packet from a ready reader yields the first remaining packet. -/
lemma read_packet_next {r : ogg_reader} {p : List Nat} {ps : List (List Nat)}
    (h1 : r.stream_ready = true) (h2 : r.page_packets = p :: ps) :
    r.read_packet = ({ code := st.ok }, some p,
      { input := r.input, stream_ready := true, page_packets := ps }) := by
  simp [ogg_reader.read_packet, h1, h2]

/-- Iterated packet reads from a ready reader yield exactly the current page's
packets in order, then end of page. -/
lemma drain_fuel_spec : ∀ (ps : List (List Nat)) (fuel : Nat) (r : ogg_reader),
    r.stream_ready = true → r.page_packets = ps → ps.length < fuel →
    drain_fuel fuel r = (ps, st.end_of_page) := by
  intro ps
  induction ps with
  | nil =>
    intro fuel r h1 h2 h3
    cases fuel with
    | zero => omega
    | succ fuel =>
      simp only [drain_fuel]
      rw [read_packet_end_of_page h1 h2]
  | cons p ps ih =>
    intro fuel r h1 h2 h3
    cases fuel with
    | zero => simp at h3
    | succ fuel =>
      simp only [drain_fuel]
      rw [read_packet_next h1 h2]
      dsimp only
      rw [ih fuel _ rfl rfl (by simp only [List.length_cons] at h3; omega)]

/-- C1: for every byte buffer that parse_tags accepts with status ok, rendering the
resulting unmodified tag set with render_tags reproduces the buffer exactly, byte
for byte, including any trailing extra_data. -/
theorem parse_render_roundtrip (b : List Nat) (t₀ : opus_tags)
    (hb : ∀ x ∈ b, x < 256) (hok : (parse_tags b t₀).1.code = st.ok) :
    (render_tags (parse_tags b t₀).2).packet = b
    ∧ (render_tags (parse_tags b t₀).2).bytes = b.length := by
  cases hcore : parse_tags_core b with
  | error e =>
    exfalso
    have hc : (parse_tags b t₀).1.code = e := by simp [parse_tags, hcore]
    exact parse_tags_core_error_ne_ok hcore (hc.symm.trans hok)
  | ok t =>
    have h2 : (parse_tags b t₀).2 = t := by simp [parse_tags, hcore]
    obtain ⟨_, _, _, _, _, _, hrt⟩ := parse_tags_core_ok hb hcore
    rw [h2]
    exact ⟨hrt, by rw [show (render_tags t).bytes = (render_tags_data t).length from rfl, hrt]⟩

/-- Witness for C1 on a concrete packet with empty vendor, no comments and one
byte of extra_data. -/
theorem parse_render_roundtrip_witness :
    (parse_tags (opusTagsMagic ++ [0, 0, 0, 0, 0, 0, 0, 0, 0]) ⟨[], [], []⟩).1.code = st.ok
    ∧ (render_tags
        (parse_tags (opusTagsMagic ++ [0, 0, 0, 0, 0, 0, 0, 0, 0]) ⟨[], [], []⟩).2).packet
      = opusTagsMagic ++ [0, 0, 0, 0, 0, 0, 0, 0, 0] :=
  ⟨by decide, (parse_render_roundtrip _ ⟨[], [], []⟩ (by decide) (by decide)).1⟩

/-- C2: render_tags emits exactly the magic signature, the vendor length as
little-endian u32 followed by the vendor bytes, the comment count, each comment's
length and bytes in order, then extra_data verbatim; the output size is exactly
16 + |vendor| + sum of (4 + |comment|) + |extra_data|. -/
theorem render_tags_layout (t : opus_tags) :
    (render_tags t).packet
      = opusTagsMagic ++ le32enc t.vendor.length ++ t.vendor ++ le32enc t.comments.length
        ++ (t.comments.map (fun c => le32enc c.length ++ c)).flatten ++ t.extra_data
    ∧ (render_tags t).bytes
      = 16 + t.vendor.length + (t.comments.map (fun c => 4 + c.length)).sum
        + t.extra_data.length := by
  constructor
  · show render_tags_data t = _
    rw [render_tags_data, comments_bytes_eq_flatten]
  · show (render_tags_data t).length = _
    rw [render_tags_data]
    simp only [List.length_append]
    rw [comments_bytes_length]
    show 8 + 4 + t.vendor.length + 4 + comments_size t.comments + t.extra_data.length
      = 16 + t.vendor.length + comments_size t.comments + t.extra_data.length
    omega

/-- C3 counterexample: the 17-byte valid packet with one byte of extra_data,
truncated at offset 16 < 17, still parses with status ok rather than any cut
error, refuting the claim for truncation offsets inside extra_data. -/
theorem truncation_in_extra_data_parses_ok :
    (parse_tags ((opusTagsMagic ++ [0, 0, 0, 0, 0, 0, 0, 0, 0]).take 16) ⟨[], [], []⟩).1.code
        = st.ok
    ∧ 16 < (opusTagsMagic ++ [0, 0, 0, 0, 0, 0, 0, 0, 0]).length
    ∧ (parse_tags (opusTagsMagic ++ [0, 0, 0, 0, 0, 0, 0, 0, 0]) ⟨[], [], []⟩).1.code
        = st.ok := by
  decide

/-- C3 (amended): truncating an accepted buffer at any offset k that falls within
the structured fields (before extra_data) makes parse_tags fail with exactly the
cut error of the field k falls in — never ok, never another field's error — and
leaves the output tag set unchanged. Offsets inside extra_data are excluded: there
the truncation still parses ok, with a shorter extra_data. -/
theorem parse_tags_truncation_statuses (b : List Nat) (t t₀ : opus_tags) (k : Nat)
    (hb : ∀ x ∈ b, x < 256)
    (hok : parse_tags_core b = .ok t)
    (hk : k < 16 + t.vendor.length + comments_size t.comments) :
    (parse_tags (b.take k) t₀).1.code = cut_status t k
    ∧ (parse_tags (b.take k) t₀).2 = t₀
    ∧ cut_status t k ∈ [st.cut_magic_number, st.cut_vendor_length, st.cut_vendor_data,
        st.cut_comment_count, st.cut_comment_length, st.cut_comment_data] := by
  obtain ⟨hmag, h16, hvl, hcl, hsz, heq, _⟩ := parse_tags_core_ok hb hok
  have hkb : k ≤ b.length := by omega
  have hTlen : (b.take k).length = k := by
    rw [List.length_take]
    omega
  have hcore : parse_tags_core (b.take k) = .error (cut_status t k) := by
    simp only [parse_tags_core, cut_status, hTlen]
    by_cases h1 : k < 8
    · rw [if_pos h1, if_pos h1]
    rw [if_neg h1, if_neg h1]
    have hm8 : (b.take k).take 8 = opusTagsMagic := by
      rw [List.take_take]
      have hmin : min 8 k = 8 := by omega
      rw [hmin, hmag]
    rw [if_neg (by simp [hm8])]
    by_cases h2 : k < 12
    · rw [if_pos h2, if_pos h2]
    rw [if_neg h2, if_neg h2]
    rw [@readLE32_take b k 8 (by omega) hkb, hvl]
    by_cases h3 : k < 12 + readLE32 b 8
    · rw [if_pos (show 12 + readLE32 b 8 > k by omega), if_pos h3]
    rw [if_neg (show ¬(12 + readLE32 b 8 > k) by omega), if_neg h3]
    by_cases h4 : k < 16 + readLE32 b 8
    · rw [if_pos (show 16 + readLE32 b 8 > k by omega), if_pos h4]
    rw [if_neg (show ¬(16 + readLE32 b 8 > k) by omega), if_neg h4]
    rw [@readLE32_take b k (12 + readLE32 b 8) (by omega) hkb]
    rw [parse_comments_trunc _ _ heq (by omega) (by omega) hkb]
  refine ⟨?_, ?_, cut_status_cases hk⟩ <;> simp [parse_tags, hcore]

/-- Witness for the amended C3: truncating the concrete packet (vendor "A", one
comment "BCD") at offset 21, inside the comment data, yields cut_comment_data. -/
theorem parse_tags_truncation_statuses_witness :
    (parse_tags
        ((opusTagsMagic ++ [1, 0, 0, 0, 65, 1, 0, 0, 0, 3, 0, 0, 0, 66, 67, 68]).take 21)
        ⟨[], [], []⟩).1.code
      = cut_status ⟨[65], [[66, 67, 68]], []⟩ 21 :=
  (parse_tags_truncation_statuses
    (opusTagsMagic ++ [1, 0, 0, 0, 65, 1, 0, 0, 0, 3, 0, 0, 0, 66, 67, 68])
    ⟨[65], [[66, 67, 68]], []⟩ ⟨[], [], []⟩ 21
    (by decide) (by rfl) (by decide)).1

/-- C4: the cursor-plus-length arithmetic of parse_tags is checked, so a declared
length field near the maximum representable value (or any declared length
exceeding the remaining bytes) produces the corresponding cut error and leaves the
tags unchanged, rather than wrapping around and being accepted: this covers the
vendor length, the comment count, and a comment length. -/
theorem parse_tags_overflow_checked (b : List Nat) (t : opus_tags)
    (hmagic : b.take 8 = opusTagsMagic) (h12 : 12 ≤ b.length) :
    (b.length < 12 + readLE32 b 8 →
      (parse_tags b t).1.code = st.cut_vendor_data ∧ (parse_tags b t).2 = t)
    ∧ (16 + readLE32 b 8 ≤ b.length →
        b.length < 16 + readLE32 b 8 + 4 * readLE32 b (12 + readLE32 b 8) →
        (parse_tags b t).1.code ∈ [st.cut_comment_length, st.cut_comment_data]
          ∧ (parse_tags b t).2 = t)
    ∧ (16 + readLE32 b 8 + 4 ≤ b.length →
        1 ≤ readLE32 b (12 + readLE32 b 8) →
        b.length < 16 + readLE32 b 8 + 4 + readLE32 b (16 + readLE32 b 8) →
        (parse_tags b t).1.code = st.cut_comment_data ∧ (parse_tags b t).2 = t) := by
  refine ⟨?_, ?_, ?_⟩
  · intro hbig
    have hcore : parse_tags_core b = .error st.cut_vendor_data := by
      simp only [parse_tags_core]
      rw [if_neg (by omega), if_neg (by simp [hmagic]), if_neg (by omega), if_pos (by omega)]
    simp [parse_tags, hcore]
  · intro h16 hbig
    cases hcm : parse_comments b (16 + readLE32 b 8) (readLE32 b (12 + readLE32 b 8)) with
    | ok pr =>
      exfalso
      obtain ⟨cs, fin⟩ := pr
      obtain ⟨hlen, hfin, hle⟩ := parse_comments_ok_len _ _ hcm
      have hge := comments_size_ge cs
      have hN : 0 < readLE32 b (12 + readLE32 b 8) := by omega
      have hfb : fin ≤ b.length := hle (by omega)
      omega
    | error e =>
      have hcore : parse_tags_core b = .error e := by
        simp only [parse_tags_core]
        rw [if_neg (by omega), if_neg (by simp [hmagic]), if_neg (by omega),
          if_neg (by omega), if_neg (by omega), hcm]
      rcases parse_comments_error_code _ _ hcm with h | h <;> subst h <;>
        simp [parse_tags, hcore]
  · intro h20 hN hbig
    obtain ⟨m, hm⟩ : ∃ m, readLE32 b (12 + readLE32 b 8) = m + 1 :=
      ⟨readLE32 b (12 + readLE32 b 8) - 1, by omega⟩
    have hcm : parse_comments b (16 + readLE32 b 8) (readLE32 b (12 + readLE32 b 8))
        = .error st.cut_comment_data := by
      rw [hm]
      simp only [parse_comments]
      rw [if_neg (by omega), if_pos (by omega)]
    have hcore : parse_tags_core b = .error st.cut_comment_data := by
      simp only [parse_tags_core]
      rw [if_neg (by omega), if_neg (by simp [hmagic]), if_neg (by omega),
        if_neg (by omega), if_neg (by omega), hcm]
    simp [parse_tags, hcore]

/-- Witness for C4: a buffer declaring a vendor length of 0xFFFFFFFF with no
vendor bytes present is rejected with cut_vendor_data and the tags unchanged. -/
theorem parse_tags_overflow_checked_witness :
    (parse_tags (opusTagsMagic ++ [255, 255, 255, 255]) ⟨[], [], []⟩).1.code
        = st.cut_vendor_data
    ∧ (parse_tags (opusTagsMagic ++ [255, 255, 255, 255]) ⟨[], [], []⟩).2 = ⟨[], [], []⟩ :=
  (parse_tags_overflow_checked (opusTagsMagic ++ [255, 255, 255, 255]) ⟨[], [], []⟩
    (by decide) (by decide)).1 (by decide)

/-- C5: whenever parse_tags returns a non-ok status, the tags object passed to it
is returned exactly as it was (no partial decode leaks into caller state). -/
theorem parse_tags_failure_preserves_tags (b : List Nat) (t : opus_tags)
    (h : (parse_tags b t).1.code ≠ st.ok) : (parse_tags b t).2 = t := by
  cases hcore : parse_tags_core b with
  | ok t' =>
    exfalso
    exact h (by simp [parse_tags, hcore])
  | error e => simp [parse_tags, hcore]

/-- Witness for C5 on the empty buffer, which fails with cut_magic_number. -/
theorem parse_tags_failure_preserves_tags_witness :
    (parse_tags [] ⟨[1], [[2]], [3]⟩).1.code ≠ st.ok
    ∧ (parse_tags [] ⟨[1], [[2]], [3]⟩).2 = ⟨[1], [[2]], [3]⟩ :=
  ⟨by decide, parse_tags_failure_preserves_tags [] ⟨[1], [[2]], [3]⟩ (by decide)⟩

/-- C6: validate_identification_header returns cut_magic_number when the packet
has fewer than 8 bytes, bad_magic_number when its first 8 bytes differ from the
OpusHead signature, ok otherwise; and bytes beyond the first 8 never affect the
result. -/
theorem validate_identification_header_spec (p q : List Nat) :
    (p.length < 8 → (validate_identification_header p).code = st.cut_magic_number)
    ∧ (8 ≤ p.length → p.take 8 ≠ opusHeadMagic →
        (validate_identification_header p).code = st.bad_magic_number)
    ∧ (8 ≤ p.length → p.take 8 = opusHeadMagic →
        (validate_identification_header p).code = st.ok)
    ∧ (8 ≤ p.length → 8 ≤ q.length → p.take 8 = q.take 8 →
        validate_identification_header p = validate_identification_header q) := by
  refine ⟨?_, ?_, ?_, ?_⟩
  · intro h
    simp [validate_identification_header, if_pos h]
  · intro h1 h2
    have h1' : ¬(p.length < 8) := by omega
    simp [validate_identification_header, if_neg h1', if_pos h2]
  · intro h1 h2
    have h1' : ¬(p.length < 8) := by omega
    have h2' : ¬(p.take 8 ≠ opusHeadMagic) := by simp [h2]
    simp [validate_identification_header, if_neg h1', if_neg h2']
  · intro h1 h2 h3
    have h1' : ¬(p.length < 8) := by omega
    have h2' : ¬(q.length < 8) := by omega
    simp only [validate_identification_header, if_neg h1', if_neg h2']
    rw [h3]

/-- Witness for C6 on the test packet "OpusHead..": accepted as ok. -/
theorem validate_identification_header_spec_witness :
    (validate_identification_header
        [79, 112, 117, 115, 72, 101, 97, 100, 46, 46]).code = st.ok :=
  (validate_identification_header_spec
    [79, 112, 117, 115, 72, 101, 97, 100, 46, 46] []).2.2.1 (by decide) (by decide)

/-- C7: delete_comments removes exactly the comments whose field name (the part
before the first '=') equals the given name case-sensitively, preserves the
relative order of the remaining comments (sublist), leaves vendor and extra_data
unchanged, and is a no-op when nothing matches. -/
theorem delete_comments_spec (t : opus_tags) (name : List Nat) :
    (delete_comments t name).vendor = t.vendor
    ∧ (delete_comments t name).extra_data = t.extra_data
    ∧ (delete_comments t name).comments.Sublist t.comments
    ∧ (∀ c, comment_name c = name → (delete_comments t name).comments.count c = 0)
    ∧ (∀ c, comment_name c ≠ name →
        (delete_comments t name).comments.count c = t.comments.count c)
    ∧ ((∀ c ∈ t.comments, comment_name c ≠ name) → delete_comments t name = t) := by
  refine ⟨rfl, rfl, List.filter_sublist _, ?_, ?_, ?_⟩
  · intro c hc
    apply List.count_eq_zero.mpr
    intro hmem
    rw [delete_comments] at hmem
    simp only [List.mem_filter, bne_iff_ne] at hmem
    exact hmem.2 hc
  · intro c hc
    exact List.count_filter (by simp [hc])
  · intro h
    have hf : t.comments.filter (fun c => comment_name c != name) = t.comments :=
      List.filter_eq_self.mpr (fun c hc => by simp [h c hc])
    simp only [delete_comments, hf]

/-- Witness for C7: deleting the absent name "X" from a two-comment tag set
leaves it unchanged. -/
theorem delete_comments_spec_witness :
    delete_comments ⟨[1], [[84, 61, 70], [65, 61, 66]], [2]⟩ [88]
      = ⟨[1], [[84, 61, 70], [65, 61, 66]], [2]⟩ :=
  (delete_comments_spec ⟨[1], [[84, 61, 70], [65, 61, 66]], [2]⟩ [88]).2.2.2.2.2 (by decide)

/-- C8: read_packet before any successful read_page fails with stream_not_ready
and yields no packet; after a successful read_page, iterated read_packet calls
yield exactly the packets of the current page in order and then end_of_page. -/
theorem read_packet_protocol (pages : List (List (List Nat))) (r r' : ogg_reader)
    (s : status) :
    ((ogg_reader.init pages).read_packet.1.code = st.stream_not_ready
      ∧ (ogg_reader.init pages).read_packet.2.1 = none)
    ∧ (r.read_page = (s, r') → s.code = st.ok →
        r.input.head? = some r'.page_packets
        ∧ drain r' = (r'.page_packets, st.end_of_page)) := by
  constructor
  · rw [read_packet_not_ready rfl]
    exact ⟨rfl, rfl⟩
  · intro hpage hok
    cases hin : r.input with
    | nil =>
      simp only [ogg_reader.read_page, hin, Prod.mk.injEq] at hpage
      obtain ⟨hs, _⟩ := hpage
      subst hs
      exact absurd hok (by decide)
    | cons pg rest =>
      simp only [ogg_reader.read_page, hin, Prod.mk.injEq] at hpage
      obtain ⟨hs, hr⟩ := hpage
      subst hr
      constructor
      · simp [hin]
      · rw [drain]
        exact drain_fuel_spec _ _ _ rfl rfl (Nat.lt_succ_self _)

/-- Witness for C8 on a one-page stream with two packets. -/
theorem read_packet_protocol_witness :
    drain { input := ([] : List (List (List Nat))), stream_ready := true,
            page_packets := [[1], [2]] }
      = ([[1], [2]], st.end_of_page) :=
  ((read_packet_protocol [] (ogg_reader.init [[[1], [2]]])
      { input := [], stream_ready := true, page_packets := [[1], [2]] }
      { code := st.ok }).2 rfl rfl).2

/-- C9: the packet produced by render_tags always carries the fixed metadata of a
second-position header packet: b_o_s = 0, e_o_s = 0, granulepos = 0, packetno = 1,
whatever the tag set contains. -/
theorem render_tags_packet_metadata (t : opus_tags) :
    (render_tags t).b_o_s = 0 ∧ (render_tags t).e_o_s = 0
      ∧ (render_tags t).granulepos = 0 ∧ (render_tags t).packetno = 1 :=
  ⟨rfl, rfl, rfl, rfl⟩

/-- C10: converting a status to a status code yields exactly its code field, so
comparisons against a code depend only on the code: two statuses with equal codes
but different messages are indistinguishable to such comparisons. -/
theorem status_conversion_code_only (s s₁ s₂ : status) (c : st) :
    s.toSt = s.code ∧ (s₁.code = s₂.code → (s₁.toSt = c ↔ s₂.toSt = c)) := by
  refine ⟨rfl, fun h => ?_⟩
  rw [status.toSt, status.toSt, h]

/-- Witness for C10: two statuses sharing a code but with different messages
compare identically against that code. -/
theorem status_conversion_code_only_witness :
    ((status.mk st.end_of_page "a").toSt = st.end_of_page
      ↔ (status.mk st.end_of_page "b").toSt = st.end_of_page) :=
  (status_conversion_code_only (status.mk st.ok "") (status.mk st.end_of_page "a")
    (status.mk st.end_of_page "b") st.end_of_page).2 rfl

end ot
